import Mathlib

/-!
Verification of the NVM allocation layer of LazyStore (`src/nvm/nvm_manager.h`).

The repository sources contain the declarations of `NvmManager` and `Nvmem`
(`src/nvm/nvm_manager.h`) and a benchmark driver; the member-function bodies
(`nvm_manager.cc`, `nvmem.cc`) and `nvm/nvm_common.h` are not among the
sources.  The operations below are therefore modelled from the specification,
over the state fields declared in the header.  Byte offsets and sizes are
natural numbers; fallible operations return `Except`.
-/

namespace LazyStore

/-- Modelled from the spec: `MB` comes from `nvm/nvm_common.h`, which is not
among the sources; the spec gives the default log-region size as on the order
of 30 MiB, so `MB` is one mebibyte. -/
def MB : Nat := 1048576

/-- Modelled from the spec: `GB` from the missing `nvm/nvm_common.h`; default
total pool size is on the order of 1 GiB. -/
def GB : Nat := 1073741824

/-- The macro `LOGCAP` is defined as `30 * MB` in `src/nvm/nvm_manager.h`. -/
def LOGCAP : Nat := 30 * MB

/-- Default value of the `cap` parameter of `NvmManager::allocate`
(declared `Nvmem* allocate(size_t cap = 30 * MB)` in `src/nvm/nvm_manager.h`). -/
def allocateDefaultCap : Nat := 30 * MB

/-- Error taxonomy of the spec: recoverable out-of-space versus the fatal
integrity violation raised on corrupted recovery input. -/
inductive NvmErr where
  | outOfSpace
  | integrityViolation
deriving DecidableEq

instance {ε α : Type} [DecidableEq ε] [DecidableEq α] : DecidableEq (Except ε α) :=
  fun x y =>
    match x, y with
    | .ok a, .ok b =>
      if h : a = b then .isTrue (by rw [h])
      else .isFalse (by intro he; cases he; exact h rfl)
    | .error a, .error b =>
      if h : a = b then .isTrue (by rw [h])
      else .isFalse (by intro he; cases he; exact h rfl)
    | .ok _, .error _ => .isFalse (by intro he; cases he)
    | .error _, .ok _ => .isFalse (by intro he; cases he)

/-- Sub-allocation handle `Nvmem`: base offset and size of its byte range in
the pool, write cursor `index`, remaining capacity `remain`, and the logical
record counter.  The field list follows `src/nvm/nvm_manager.h`; `written`
records the bytes appended so far (the handle's view of pool memory), so that
the absence of partial writes is expressible. -/
structure Nvmem where
  base : Nat
  size : Nat
  index : Nat
  remain : Nat
  counter : Nat
  written : List Nat
deriving DecidableEq

/-- Modelled from the spec: a freshly constructed handle over one byte range —
cursor at zero, remaining capacity equal to the size. -/
def Nvmem.mk0 (base size : Nat) : Nvmem :=
  ⟨base, size, 0, size, 0, []⟩

/-- `Nvmem::GetBeginAddress`: the handle's absolute base offset in the pool. -/
def Nvmem.GetBeginAddress (h : Nvmem) : Nat := h.base

/-- `Nvmem::GetCounter`: read the logical record counter. -/
def Nvmem.GetCounter (h : Nvmem) : Nat := h.counter

/-- `Nvmem::UpdateCounter`: set the logical record counter. -/
def Nvmem.UpdateCounter (h : Nvmem) (c : Nat) : Nvmem :=
  { h with counter := c }

/-- Modelled from the spec: `Nvmem::Insert(data, length)` appends `length`
bytes at the write cursor.  It fails with out-of-space when `length` exceeds
the remaining capacity, leaving the handle entirely unchanged; on success it
advances the cursor, decrements the remaining capacity, appends the bytes,
and returns the absolute pool offset at which they were written. -/
def Nvmem.Insert (h : Nvmem) (data : List Nat) (len : Nat) :
    Except NvmErr Nat × Nvmem :=
  if len ≤ h.remain then
    (.ok (h.base + h.index),
      { h with
          index := h.index + len
          remain := h.remain - len
          written := h.written ++ data.take len })
  else (.error .outOfSpace, h)

/-- Modelled from the spec: `Nvmem::UpdateIndex` repositions the byte cursor,
failing fatally (integrity violation) when the new position exceeds the
handle's size. -/
def Nvmem.UpdateIndex (h : Nvmem) (newIndex : Nat) : Except NvmErr Nvmem :=
  if newIndex ≤ h.size then
    .ok { h with index := newIndex, remain := h.size - newIndex }
  else .error .integrityViolation

/-- Two extents `(offset, length)` overlap when some byte position lies in
both half-open ranges. -/
def overlapB (a b : Nat × Nat) : Bool :=
  decide (max a.1 b.1 < min (a.1 + a.2) (b.1 + b.2))

/-- Disjointness of two extents. -/
def NoOvl (a b : Nat × Nat) : Prop := overlapB a b = false

instance (a b : Nat × Nat) : Decidable (NoOvl a b) :=
  inferInstanceAs (Decidable (overlapB a b = false))

/-- Pool manager state, after the fields of `NvmManager` in
`src/nvm/nvm_manager.h`: log-region capacity `logCap`, total capacity `cap`,
general-region bump cursor `index`, the independent log-region cursor
`logIndex`, the free-extent pool, and the live sub-allocation ranges
(both `(offset, length)` lists). -/
structure NvmManager where
  logCap : Nat
  cap : Nat
  index : Nat
  logIndex : Nat
  freeList : List (Nat × Nat)
  live : List (Nat × Nat)
deriving DecidableEq

/-- Modelled from the spec: `initialize` reserves the first `logCap` bytes as
the log region, sets `index` to `logCap` for general allocations and an
independent cursor for the log region; free pool and live set start empty. -/
def NvmManager.init (cap logCap : Nat) : NvmManager :=
  ⟨logCap, cap, logCap, 0, [], []⟩

/-- First-fit search over the free pool: the first extent whose length is at
least `n`, together with the pool with that extent removed. -/
def firstFit : List (Nat × Nat) → Nat → Option ((Nat × Nat) × List (Nat × Nat))
  | [], _ => none
  | e :: rest, n =>
    if n ≤ e.2 then some (e, rest)
    else
      match firstFit rest n with
      | some (f, rest') => some (f, e :: rest')
      | none => none

/-- Modelled from the spec: `NvmManager::allocate(n)` first tries the
free-extent pool with a first-fit policy, splitting a larger extent so the
remainder re-enters the pool (no coalescing); otherwise it bump-allocates from
the cursor, failing with out-of-space when the cursor would exceed `cap`. -/
def NvmManager.allocate (m : NvmManager) (n : Nat) :
    Except NvmErr (Nvmem × NvmManager) :=
  match firstFit m.freeList n with
  | some (e, rest) =>
    .ok (Nvmem.mk0 e.1 n,
      { m with
          freeList := if n < e.2 then rest ++ [(e.1 + n, e.2 - n)] else rest
          live := m.live ++ [(e.1, n)] })
  | none =>
    if m.index + n ≤ m.cap then
      .ok (Nvmem.mk0 m.index n,
        { m with index := m.index + n, live := m.live ++ [(m.index, n)] })
    else .error .outOfSpace

/-- `allocate` called with no explicit size, i.e. with the declared default
argument `cap = 30 * MB`. -/
def NvmManager.allocateDefault (m : NvmManager) :
    Except NvmErr (Nvmem × NvmManager) :=
  m.allocate allocateDefaultCap

/-- Modelled from the spec: `NvmManager::reallocate(offset, size)` validates
`offset + size ≤ cap` and that the range overlaps no live allocation, failing
fatally (integrity violation) otherwise; on success it constructs a handle
over exactly that range, marks the range live, and leaves the bump cursor
untouched. -/
def NvmManager.reallocate (m : NvmManager) (offset size : Nat) :
    Except NvmErr (Nvmem × NvmManager) :=
  if offset + size ≤ m.cap ∧ m.live.all (fun r => !overlapB (offset, size) r) then
    .ok (Nvmem.mk0 offset size, { m with live := m.live ++ [(offset, size)] })
  else .error .integrityViolation

/-- Find and remove the live range whose base equals `offset`. -/
def removeRange : List (Nat × Nat) → Nat → Option ((Nat × Nat) × List (Nat × Nat))
  | [], _ => none
  | r :: rest, off =>
    if r.1 = off then some (r, rest)
    else
      match removeRange rest off with
      | some (f, rest') => some (f, r :: rest')
      | none => none

/-- Modelled from the spec: `NvmManager::free(address)` computes the handle's
`(offset, length)` and appends it to the free-extent pool; bytes are not
zeroed and adjacent free extents are not merged. -/
def NvmManager.free (m : NvmManager) (offset : Nat) : NvmManager :=
  match removeRange m.live offset with
  | some (r, rest) => { m with live := rest, freeList := m.freeList ++ [r] }
  | none => m

/-- One recovery record: replay it through `reallocate` and advance the
general cursor to the maximum observed `offset + size`. -/
def NvmManager.recovery1 (m : NvmManager) (r : Nat × Nat) :
    Except NvmErr NvmManager :=
  match m.reallocate r.1 r.2 with
  | .ok (_, m') => .ok { m' with index := max m'.index (r.1 + r.2) }
  | .error e => .error e

/-- Modelled from the spec: `NvmManager::recovery(records)` replays each
persisted `(offset, size)` record through `reallocate` to rebuild the
live-range bookkeeping, advancing the general cursor to the maximum observed
`offset + size`; the free-extent pool is not reconstructed. -/
def NvmManager.recovery (m : NvmManager) :
    List (Nat × Nat) → Except NvmErr NvmManager
  | [] => .ok m
  | r :: rs =>
    match m.recovery1 r with
    | .ok m' => m'.recovery rs
    | .error e => .error e

/-- Modelled from the spec: the used-byte count reported by `getNvmInfo` —
the bytes held by live sub-allocations. -/
def NvmManager.usedBytes (m : NvmManager) : Nat :=
  (m.live.map Prod.snd).sum

/-- Modelled from the spec: `getNvmInfo()` reports used bytes, free bytes and
total capacity. -/
def NvmManager.getNvmInfo (m : NvmManager) : Nat × Nat × Nat :=
  (m.usedBytes, m.cap - m.usedBytes, m.cap)

/-- Structural invariant of the pool: cursors within bounds, every live range
and free extent ending at or below the cursor, live ranges pairwise disjoint,
free extents pairwise disjoint, and live ranges disjoint from free extents. -/
def NvmManager.Inv (m : NvmManager) : Prop :=
  m.logCap ≤ m.index ∧ m.index ≤ m.cap ∧
  (∀ r ∈ m.live, r.1 + r.2 ≤ m.index) ∧
  (∀ f ∈ m.freeList, f.1 + f.2 ≤ m.index) ∧
  List.Pairwise NoOvl m.live ∧
  List.Pairwise NoOvl m.freeList ∧
  (∀ r ∈ m.live, ∀ f ∈ m.freeList, NoOvl r f)

/-- Pool states reachable through the documented usage: initialization with
`logCap ≤ cap`, optionally one recovery replay at startup (the spec restricts
`reallocate` to recovery, and recovery runs before normal allocation resumes),
then any sequence of allocations and frees. -/
inductive Reachable : NvmManager → Prop where
  | init : ∀ cap logCap, logCap ≤ cap → Reachable (NvmManager.init cap logCap)
  | recover : ∀ cap logCap recs m', logCap ≤ cap →
      (NvmManager.init cap logCap).recovery recs = .ok m' → Reachable m'
  | alloc : ∀ m n h m', Reachable m → m.allocate n = .ok (h, m') → Reachable m'
  | free : ∀ m off, Reachable m → Reachable (m.free off)

/-- Region-separation bookkeeping: the general cursor, every live range and
every free extent stay at or above `logCap`, and the log cursor is untouched
by general operations. -/
def NvmManager.RegionOk (m : NvmManager) : Prop :=
  m.logCap ≤ m.index ∧ m.logIndex = 0 ∧
  (∀ r ∈ m.live, m.logCap ≤ r.1) ∧
  (∀ f ∈ m.freeList, m.logCap ≤ f.1)

/-- Reachability as in `Reachable`, with the recovery records additionally
drawn from the general region (offsets at or above the log capacity). -/
inductive GenReachable : NvmManager → Prop where
  | init : ∀ cap logCap, logCap ≤ cap → GenReachable (NvmManager.init cap logCap)
  | recover : ∀ cap logCap recs m', logCap ≤ cap → (∀ r ∈ recs, logCap ≤ r.1) →
      (NvmManager.init cap logCap).recovery recs = .ok m' → GenReachable m'
  | alloc : ∀ m n h m', GenReachable m → m.allocate n = .ok (h, m') →
      GenReachable m'
  | free : ∀ m off, GenReachable m → GenReachable (m.free off)

/-! Helper lemmas about extent disjointness. -/

theorem noOvl_iff {a b : Nat × Nat} :
    NoOvl a b ↔ min (a.1 + a.2) (b.1 + b.2) ≤ max a.1 b.1 := by
  unfold NoOvl overlapB
  rw [decide_eq_false_iff_not]
  exact not_lt

theorem noOvl_symm {a b : Nat × Nat} (h : NoOvl a b) : NoOvl b a := by
  rw [noOvl_iff] at *
  omega

theorem noOvl_symmetric : Symmetric NoOvl := fun _ _ h => noOvl_symm h

theorem noOvl_mono_left {a e b : Nat × Nat} (h1 : e.1 ≤ a.1)
    (h2 : a.1 + a.2 ≤ e.1 + e.2) (h : NoOvl e b) : NoOvl a b := by
  rw [noOvl_iff] at *
  omega

theorem noOvl_mono_right {a e b : Nat × Nat} (h1 : e.1 ≤ a.1)
    (h2 : a.1 + a.2 ≤ e.1 + e.2) (h : NoOvl b e) : NoOvl b a :=
  noOvl_symm (noOvl_mono_left h1 h2 (noOvl_symm h))

theorem noOvl_of_end_le {a b : Nat × Nat} (hb : b.1 + b.2 ≤ a.1) : NoOvl a b := by
  rw [noOvl_iff]
  omega

theorem noOvl_adjacent {o n k : Nat} : NoOvl (o, n) (o + n, k) := by
  rw [noOvl_iff]
  simp only []
  omega

/-! Helper lemmas about the free-pool searches. -/

theorem firstFit_spec :
    ∀ {l : List (Nat × Nat)} {n : Nat} {e : Nat × Nat} {rest : List (Nat × Nat)},
      firstFit l n = some (e, rest) →
      n ≤ e.2 ∧ ∃ pre post, l = pre ++ e :: post ∧ rest = pre ++ post ∧
        ∀ f ∈ pre, f.2 < n := by
  intro l
  induction l with
  | nil => intro n e rest h; simp [firstFit] at h
  | cons x xs ih =>
    intro n e rest h
    by_cases hx : n ≤ x.2
    · rw [firstFit, if_pos hx] at h
      obtain ⟨he, hrest⟩ := Prod.mk.injEq .. ▸ (Option.some.injEq _ _ ▸ h)
      exact ⟨he ▸ hx, [], xs, by rw [he]; rfl, by rw [hrest]; rfl, by simp⟩
    · rw [firstFit, if_neg hx] at h
      cases hf : firstFit xs n with
      | none => rw [hf] at h; cases h
      | some p =>
        obtain ⟨f, rest'⟩ := p
        rw [hf] at h
        obtain ⟨he, hrest⟩ := Prod.mk.injEq .. ▸ (Option.some.injEq _ _ ▸ h)
        obtain ⟨hn, pre, post, hl, hr, hpre⟩ := ih hf
        refine ⟨he ▸ hn, x :: pre, post, by rw [hl, he]; rfl,
          by rw [← hrest, hr]; rfl, ?_⟩
        intro g hg
        rcases List.mem_cons.mp hg with hgx | hgp
        · subst hgx; omega
        · exact hpre g hgp

theorem firstFit_none_of :
    ∀ {l : List (Nat × Nat)} {n : Nat}, (∀ f ∈ l, f.2 < n) → firstFit l n = none := by
  intro l
  induction l with
  | nil => intro n _; rfl
  | cons x xs ih =>
    intro n hall
    have hx : ¬ n ≤ x.2 := by have := hall x (by simp); omega
    rw [firstFit, if_neg hx, ih (fun f hf => hall f (by simp [hf]))]

theorem firstFit_eq_of :
    ∀ {pre : List (Nat × Nat)} {e : Nat × Nat} {post : List (Nat × Nat)} {n : Nat},
      (∀ f ∈ pre, f.2 < n) → n ≤ e.2 →
      firstFit (pre ++ e :: post) n = some (e, pre ++ post) := by
  intro pre
  induction pre with
  | nil => intro e post n _ hn; simp [firstFit, if_pos hn]
  | cons x xs ih =>
    intro e post n hall hn
    have hx : ¬ n ≤ x.2 := by have := hall x (by simp); omega
    rw [List.cons_append, firstFit, if_neg hx,
      ih (fun f hf => hall f (by simp [hf])) hn]
    rfl

theorem removeRange_spec :
    ∀ {l : List (Nat × Nat)} {off : Nat} {r : Nat × Nat} {rest : List (Nat × Nat)},
      removeRange l off = some (r, rest) →
      r.1 = off ∧ ∃ pre post, l = pre ++ r :: post ∧ rest = pre ++ post := by
  intro l
  induction l with
  | nil => intro off r rest h; simp [removeRange] at h
  | cons x xs ih =>
    intro off r rest h
    by_cases hx : x.1 = off
    · rw [removeRange, if_pos hx] at h
      obtain ⟨he, hrest⟩ := Prod.mk.injEq .. ▸ (Option.some.injEq _ _ ▸ h)
      exact ⟨he ▸ hx, [], xs, by rw [he]; rfl, by rw [hrest]; rfl⟩
    · rw [removeRange, if_neg hx] at h
      cases hf : removeRange xs off with
      | none => rw [hf] at h; cases h
      | some p =>
        obtain ⟨f, rest'⟩ := p
        rw [hf] at h
        obtain ⟨he, hrest⟩ := Prod.mk.injEq .. ▸ (Option.some.injEq _ _ ▸ h)
        obtain ⟨ho, pre, post, hl, hr⟩ := ih hf
        exact ⟨he ▸ ho, x :: pre, post, by rw [hl, he]; rfl,
          by rw [← hrest, hr]; rfl⟩

/-! Pairwise-disjointness bookkeeping. -/

theorem pairwise_extract {pre post : List (Nat × Nat)} {e : Nat × Nat}
    (hl : List.Pairwise NoOvl (pre ++ e :: post)) :
    List.Pairwise NoOvl (pre ++ post) ∧ ∀ x ∈ pre ++ post, NoOvl e x := by
  have h := (List.pairwise_middle (fun {_ _} hab => noOvl_symm hab)).mp hl
  rw [List.pairwise_cons] at h
  exact ⟨h.2, h.1⟩

theorem mem_middle {x e : Nat × Nat} {pre post : List (Nat × Nat)}
    (hx : x ∈ pre ++ post) : x ∈ pre ++ e :: post := by
  simp only [List.mem_append, List.mem_cons] at *
  tauto

/-! Effect of each pool operation on the invariant. -/

theorem reallocate_ok {m : NvmManager} {offset size : Nat} {h : Nvmem}
    {m' : NvmManager} (hok : m.reallocate offset size = .ok (h, m')) :
    offset + size ≤ m.cap ∧ (∀ r ∈ m.live, NoOvl (offset, size) r) ∧
    h = Nvmem.mk0 offset size ∧
    m' = { m with live := m.live ++ [(offset, size)] } := by
  unfold NvmManager.reallocate at hok
  split at hok
  next hc =>
    obtain ⟨hh, hm⟩ := Prod.mk.injEq .. ▸ (Except.ok.injEq _ _ ▸ hok)
    refine ⟨hc.1, ?_, hh.symm, hm.symm⟩
    intro r hr
    show overlapB (offset, size) r = false
    simpa using List.all_eq_true.mp hc.2 r hr
  next => cases hok

theorem allocate_ok {m : NvmManager} {n : Nat} {h : Nvmem} {m' : NvmManager}
    (hInv : m.Inv) (hok : m.allocate n = .ok (h, m')) :
    m'.Inv ∧ m'.cap = m.cap ∧ m'.logCap = m.logCap ∧ m'.logIndex = m.logIndex ∧
    m'.live = m.live ++ [(h.base, n)] ∧
    h.size = n ∧ h.index = 0 ∧ h.remain = n ∧
    h.base + n ≤ m.cap ∧ m.index ≤ m'.index ∧
    (∀ r ∈ m.live, NoOvl (h.base, n) r) := by
  obtain ⟨hLI, hIC, hLiveEnd, hFreeEnd, hPL, hPF, hLF⟩ := hInv
  unfold NvmManager.allocate at hok
  cases hF : firstFit m.freeList n with
  | some p =>
    obtain ⟨e, rest⟩ := p
    rw [hF] at hok
    obtain ⟨hh, hm⟩ := Prod.mk.injEq .. ▸ (Except.ok.injEq _ _ ▸ hok)
    subst hh hm
    obtain ⟨hn2, pre, post, hfl, hrest, hpre⟩ := firstFit_spec hF
    have he_mem : e ∈ m.freeList := by
      rw [hfl]; exact List.mem_append_right _ (List.mem_cons_self _ _)
    have heEnd : e.1 + e.2 ≤ m.index := hFreeEnd e he_mem
    have hPF' := hPF
    rw [hfl] at hPF'
    obtain ⟨hPrest, hErest⟩ := pairwise_extract hPF'
    rw [← hrest] at hPrest hErest
    have hrest_mem : ∀ f ∈ rest, f ∈ m.freeList := by
      intro f hf
      rw [hfl]
      exact mem_middle (hrest ▸ hf)
    have hsub2 : e.1 + n ≤ e.1 + e.2 := by omega
    have hNoLive : ∀ r ∈ m.live, NoOvl (e.1, n) r := fun r hr =>
      noOvl_mono_left (le_refl e.1) hsub2 (noOvl_symm (hLF r hr e he_mem))
    have hremSub2 : (e.1 + n) + (e.2 - n) ≤ e.1 + e.2 := by omega
    have hremLo : e.1 ≤ e.1 + n := by omega
    refine ⟨⟨hLI, hIC, ?_, ?_, ?_, ?_, ?_⟩, rfl, rfl, rfl, rfl, rfl, rfl, rfl,
      by show e.1 + n ≤ m.cap; omega, le_refl _, hNoLive⟩
    · intro r hr
      rcases List.mem_append.mp hr with h1 | h2
      · exact hLiveEnd r h1
      · have : r = (e.1, n) := by simpa using h2
        subst this
        show e.1 + n ≤ m.index
        omega
    · intro f hf
      simp only [] at hf
      split at hf
      · rcases List.mem_append.mp hf with h1 | h2
        · exact hFreeEnd f (hrest_mem f h1)
        · have : f = (e.1 + n, e.2 - n) := by simpa using h2
          subst this
          show (e.1 + n) + (e.2 - n) ≤ m.index
          omega
      · exact hFreeEnd f (hrest_mem f hf)
    · rw [List.pairwise_append]
      refine ⟨hPL, by simp, ?_⟩
      intro r hr b hb
      have : b = (e.1, n) := by simpa using hb
      subst this
      exact noOvl_symm (hNoLive r hr)
    · simp only []
      split
      · rw [List.pairwise_append]
        refine ⟨hPrest, by simp, ?_⟩
        intro f hf b hb
        have : b = (e.1 + n, e.2 - n) := by simpa using hb
        subst this
        exact noOvl_mono_right hremLo hremSub2 (noOvl_symm (hErest f hf))
      · exact hPrest
    · intro r hr f hf
      simp only [] at hf
      have hrcases := List.mem_append.mp hr
      have hfreeNoOvl : ∀ g ∈ rest, NoOvl r g ∧ NoOvl (e.1, n) g := by
        intro g hg
        constructor
        · rcases hrcases with h1 | h2
          · exact hLF r h1 g (hrest_mem g hg)
          · have : r = (e.1, n) := by simpa using h2
            subst this
            exact noOvl_mono_left (le_refl e.1) hsub2 (hErest g hg)
        · exact noOvl_mono_left (le_refl e.1) hsub2 (hErest g hg)
      have hremNoOvl : NoOvl r (e.1 + n, e.2 - n) := by
        rcases hrcases with h1 | h2
        · exact noOvl_mono_right hremLo hremSub2 (hLF r h1 e he_mem)
        · have : r = (e.1, n) := by simpa using h2
          subst this
          exact noOvl_adjacent
      split at hf
      · rcases List.mem_append.mp hf with h1 | h2
        · exact (hfreeNoOvl f h1).1
        · have : f = (e.1 + n, e.2 - n) := by simpa using h2
          subst this
          exact hremNoOvl
      · exact (hfreeNoOvl f hf).1
  | none =>
    rw [hF] at hok
    by_cases hbound : m.index + n ≤ m.cap
    · rw [if_pos hbound] at hok
      obtain ⟨hh, hm⟩ := Prod.mk.injEq .. ▸ (Except.ok.injEq _ _ ▸ hok)
      subst hh hm
      have hNoLive : ∀ r ∈ m.live, NoOvl (m.index, n) r := fun r hr =>
        noOvl_of_end_le (hLiveEnd r hr)
      have hNoFree : ∀ f ∈ m.freeList, NoOvl (m.index, n) f := fun f hf =>
        noOvl_of_end_le (hFreeEnd f hf)
      refine ⟨⟨by show m.logCap ≤ m.index + n; omega, hbound, ?_, ?_, ?_, hPF, ?_⟩,
        rfl, rfl, rfl, rfl, rfl, rfl, rfl, hbound,
        by show m.index ≤ m.index + n; omega, hNoLive⟩
      · intro r hr
        rcases List.mem_append.mp hr with h1 | h2
        · have := hLiveEnd r h1
          show r.1 + r.2 ≤ m.index + n
          omega
        · have : r = (m.index, n) := by simpa using h2
          subst this
          show m.index + n ≤ m.index + n
          omega
      · intro f hf
        have := hFreeEnd f hf
        show f.1 + f.2 ≤ m.index + n
        omega
      · rw [List.pairwise_append]
        refine ⟨hPL, by simp, ?_⟩
        intro r hr b hb
        have : b = (m.index, n) := by simpa using hb
        subst this
        exact noOvl_symm (hNoLive r hr)
      · intro r hr f hf
        rcases List.mem_append.mp hr with h1 | h2
        · exact hLF r h1 f hf
        · have : r = (m.index, n) := by simpa using h2
          subst this
          exact hNoFree f hf
    · rw [if_neg hbound] at hok
      cases hok

theorem free_inv {m : NvmManager} (off : Nat) (hInv : m.Inv) :
    (m.free off).Inv ∧ (m.free off).cap = m.cap ∧
    (m.free off).logCap = m.logCap ∧ (m.free off).index = m.index ∧
    (m.free off).logIndex = m.logIndex := by
  obtain ⟨hLI, hIC, hLiveEnd, hFreeEnd, hPL, hPF, hLF⟩ := hInv
  unfold NvmManager.free
  cases hR : removeRange m.live off with
  | none => exact ⟨⟨hLI, hIC, hLiveEnd, hFreeEnd, hPL, hPF, hLF⟩, rfl, rfl, rfl, rfl⟩
  | some p =>
    obtain ⟨r, rest⟩ := p
    obtain ⟨hr1, pre, post, hl, hrest⟩ := removeRange_spec hR
    have hr_mem : r ∈ m.live := by
      rw [hl]; exact List.mem_append_right _ (List.mem_cons_self _ _)
    have hPL' := hPL
    rw [hl] at hPL'
    obtain ⟨hPrest, hRrest⟩ := pairwise_extract hPL'
    rw [← hrest] at hPrest hRrest
    have hrest_mem : ∀ x ∈ rest, x ∈ m.live := by
      intro x hx
      rw [hl]
      exact mem_middle (hrest ▸ hx)
    refine ⟨⟨hLI, hIC, ?_, ?_, hPrest, ?_, ?_⟩, rfl, rfl, rfl, rfl⟩
    · intro x hx
      exact hLiveEnd x (hrest_mem x hx)
    · intro f hf
      rcases List.mem_append.mp hf with h1 | h2
      · exact hFreeEnd f h1
      · have : f = r := by simpa using h2
        subst this
        exact hLiveEnd f hr_mem
    · rw [List.pairwise_append]
      refine ⟨hPF, by simp, ?_⟩
      intro f hf b hb
      have : b = r := by simpa using hb
      subst this
      exact noOvl_symm (hLF b hr_mem f hf)
    · intro x hx f hf
      rcases List.mem_append.mp hf with h1 | h2
      · exact hLF x (hrest_mem x hx) f h1
      · have : f = r := by simpa using h2
        subst this
        exact noOvl_symm (hRrest x hx)

theorem recovery1_ok {m : NvmManager} {r : Nat × Nat} {m' : NvmManager}
    (hok : m.recovery1 r = .ok m') :
    r.1 + r.2 ≤ m.cap ∧ (∀ l ∈ m.live, NoOvl r l) ∧
    m' = { m with live := m.live ++ [r], index := max m.index (r.1 + r.2) } := by
  unfold NvmManager.recovery1 at hok
  cases hre : m.reallocate r.1 r.2 with
  | error e => rw [hre] at hok; cases hok
  | ok p =>
    obtain ⟨h, m₁⟩ := p
    rw [hre] at hok
    obtain ⟨hb, hno, hh, hm₁⟩ := reallocate_ok hre
    have hm' := (Except.ok.injEq _ _ ▸ hok : _ = m')
    subst hm₁
    subst hm'
    exact ⟨hb, fun l hl => hno l hl, rfl⟩

theorem init_inv {cap logCap : Nat} (hlc : logCap ≤ cap) :
    (NvmManager.init cap logCap).Inv := by
  refine ⟨le_refl _, hlc, ?_, ?_, ?_, ?_, ?_⟩ <;> simp [NvmManager.init]

theorem recovery_inv : ∀ {recs : List (Nat × Nat)} {m m' : NvmManager},
    m.Inv → m.freeList = [] → m.recovery recs = .ok m' →
    m'.Inv ∧ m'.freeList = [] ∧ m'.cap = m.cap ∧ m'.logCap = m.logCap ∧
    m'.logIndex = m.logIndex ∧ m.index ≤ m'.index := by
  intro recs
  induction recs with
  | nil =>
    intro m m' hInv hfl hok
    simp only [NvmManager.recovery] at hok
    have hm := (Except.ok.injEq _ _ ▸ hok : m = m')
    subst hm
    exact ⟨hInv, hfl, rfl, rfl, rfl, le_refl _⟩
  | cons r rs ih =>
    intro m m' hInv hfl hok
    simp only [NvmManager.recovery] at hok
    cases h1 : m.recovery1 r with
    | error e => rw [h1] at hok; cases hok
    | ok m₁ =>
      rw [h1] at hok
      obtain ⟨hb, hno, hm₁⟩ := recovery1_ok h1
      subst hm₁
      obtain ⟨hLI, hIC, hLiveEnd, hFreeEnd, hPL, hPF, hLF⟩ := hInv
      have hInv₁ : NvmManager.Inv
          { m with live := m.live ++ [r], index := max m.index (r.1 + r.2) } := by
        refine ⟨?_, ?_, ?_, ?_, ?_, ?_, ?_⟩
        · show m.logCap ≤ max m.index (r.1 + r.2)
          omega
        · show max m.index (r.1 + r.2) ≤ m.cap
          omega
        · intro l hl
          show l.1 + l.2 ≤ max m.index (r.1 + r.2)
          rcases List.mem_append.mp hl with h1 | h2
          · have := hLiveEnd l h1
            omega
          · have : l = r := by simpa using h2
            subst this
            omega
        · intro f hf
          have hf' : f ∈ m.freeList := hf
          rw [hfl] at hf'
          simp at hf'
        · rw [List.pairwise_append]
          refine ⟨hPL, by simp, ?_⟩
          intro l hl b hb2
          have : b = r := by simpa using hb2
          subst this
          exact noOvl_symm (hno l hl)
        · exact hPF
        · intro l hl f hf
          have hf' : f ∈ m.freeList := hf
          rw [hfl] at hf'
          simp at hf'
      have hfl₁ :
          ({ m with
              live := m.live ++ [r]
              index := max m.index (r.1 + r.2) } : NvmManager).freeList = [] := hfl
      obtain ⟨hI', hF', hc', hlc', hli', hidx'⟩ := ih hInv₁ hfl₁ hok
      exact ⟨hI', hF', hc', hlc', hli', le_trans (le_max_left _ _) hidx'⟩

theorem reachable_inv : ∀ {m : NvmManager}, Reachable m → m.Inv := by
  intro m hm
  induction hm with
  | init cap logCap hlc => exact init_inv hlc
  | recover cap logCap recs m' hlc hok => exact (recovery_inv (init_inv hlc) rfl hok).1
  | alloc m n h m' hm hok ih => exact (allocate_ok ih hok).1
  | free m off hm ih => exact (free_inv off ih).1

/-! Region separation bookkeeping. -/

theorem allocate_region {m : NvmManager} {n : Nat} {h : Nvmem} {m' : NvmManager}
    (hro : m.RegionOk) (hok : m.allocate n = .ok (h, m')) :
    m'.RegionOk ∧ m.logCap ≤ h.base ∧ m'.logCap = m.logCap := by
  obtain ⟨hLI, hL0, hLive, hFree⟩ := hro
  unfold NvmManager.allocate at hok
  cases hF : firstFit m.freeList n with
  | some p =>
    obtain ⟨e, rest⟩ := p
    rw [hF] at hok
    obtain ⟨hh, hm⟩ := Prod.mk.injEq .. ▸ (Except.ok.injEq _ _ ▸ hok)
    subst hh hm
    obtain ⟨hn2, pre, post, hfl, hrest, hpre⟩ := firstFit_spec hF
    have he_mem : e ∈ m.freeList := by
      rw [hfl]; exact List.mem_append_right _ (List.mem_cons_self _ _)
    have hrest_mem : ∀ f ∈ rest, f ∈ m.freeList := fun f hf => by
      rw [hfl]; exact mem_middle (hrest ▸ hf)
    have he1 : m.logCap ≤ e.1 := hFree e he_mem
    refine ⟨⟨hLI, hL0, ?_, ?_⟩, he1, rfl⟩
    · intro r hr
      show m.logCap ≤ r.1
      rcases List.mem_append.mp hr with h1 | h2
      · exact hLive r h1
      · have : r = (e.1, n) := by simpa using h2
        subst this
        exact he1
    · intro f hf
      show m.logCap ≤ f.1
      simp only [] at hf
      split at hf
      · rcases List.mem_append.mp hf with h1 | h2
        · exact hFree f (hrest_mem f h1)
        · have : f = (e.1 + n, e.2 - n) := by simpa using h2
          subst this
          show m.logCap ≤ e.1 + n
          omega
      · exact hFree f (hrest_mem f hf)
  | none =>
    rw [hF] at hok
    by_cases hbound : m.index + n ≤ m.cap
    · rw [if_pos hbound] at hok
      obtain ⟨hh, hm⟩ := Prod.mk.injEq .. ▸ (Except.ok.injEq _ _ ▸ hok)
      subst hh hm
      refine ⟨⟨by show m.logCap ≤ m.index + n; omega, hL0, ?_, hFree⟩, hLI, rfl⟩
      intro r hr
      show m.logCap ≤ r.1
      rcases List.mem_append.mp hr with h1 | h2
      · exact hLive r h1
      · have : r = (m.index, n) := by simpa using h2
        subst this
        exact hLI
    · rw [if_neg hbound] at hok
      cases hok

theorem free_region {m : NvmManager} (off : Nat) (hro : m.RegionOk) :
    (m.free off).RegionOk ∧ (m.free off).logCap = m.logCap := by
  obtain ⟨hLI, hL0, hLive, hFree⟩ := hro
  unfold NvmManager.free
  cases hR : removeRange m.live off with
  | none => exact ⟨⟨hLI, hL0, hLive, hFree⟩, rfl⟩
  | some p =>
    obtain ⟨r, rest⟩ := p
    obtain ⟨hr1, pre, post, hl, hrest⟩ := removeRange_spec hR
    have hr_mem : r ∈ m.live := by
      rw [hl]; exact List.mem_append_right _ (List.mem_cons_self _ _)
    have hrest_mem : ∀ x ∈ rest, x ∈ m.live := fun x hx => by
      rw [hl]; exact mem_middle (hrest ▸ hx)
    refine ⟨⟨hLI, hL0, ?_, ?_⟩, rfl⟩
    · intro x hx
      exact hLive x (hrest_mem x hx)
    · intro f hf
      rcases List.mem_append.mp hf with h1 | h2
      · exact hFree f h1
      · have : f = r := by simpa using h2
        subst this
        exact hLive f hr_mem

theorem recovery_region : ∀ {recs : List (Nat × Nat)} {m m' : NvmManager},
    m.RegionOk → (∀ r ∈ recs, m.logCap ≤ r.1) → m.recovery recs = .ok m' →
    m'.RegionOk ∧ m'.logCap = m.logCap := by
  intro recs
  induction recs with
  | nil =>
    intro m m' hro _ hok
    simp only [NvmManager.recovery] at hok
    have hm := (Except.ok.injEq _ _ ▸ hok : m = m')
    subst hm
    exact ⟨hro, rfl⟩
  | cons r rs ih =>
    intro m m' hro hrec hok
    simp only [NvmManager.recovery] at hok
    cases h1 : m.recovery1 r with
    | error e => rw [h1] at hok; cases hok
    | ok m₁ =>
      rw [h1] at hok
      obtain ⟨hb, hno, hm₁⟩ := recovery1_ok h1
      subst hm₁
      obtain ⟨hLI, hL0, hLive, hFree⟩ := hro
      have hro₁ : NvmManager.RegionOk
          { m with live := m.live ++ [r], index := max m.index (r.1 + r.2) } := by
        refine ⟨?_, hL0, ?_, hFree⟩
        · show m.logCap ≤ max m.index (r.1 + r.2)
          omega
        · intro l hl
          show m.logCap ≤ l.1
          rcases List.mem_append.mp hl with h1 | h2
          · exact hLive l h1
          · have : l = r := by simpa using h2
            subst this
            exact hrec l (by simp)
      have := ih hro₁ (fun x hx => hrec x (by simp [hx])) hok
      exact ⟨this.1, this.2⟩

theorem genReachable_region : ∀ {m : NvmManager}, GenReachable m → m.RegionOk := by
  intro m hm
  induction hm with
  | init cap logCap hlc =>
    exact ⟨le_refl _, rfl, by simp [NvmManager.init], by simp [NvmManager.init]⟩
  | recover cap logCap recs m' hlc hrec hok =>
    have h0 : (NvmManager.init cap logCap).RegionOk :=
      ⟨le_refl _, rfl, by simp [NvmManager.init], by simp [NvmManager.init]⟩
    exact (recovery_region h0 hrec hok).1
  | alloc m n h m' hm hok ih => exact (allocate_region ih hok).1
  | free m off hm ih => exact (free_region off ih).1

/-- Deterministic description of a successful recovery replay. -/
theorem recovery_exact : ∀ {recs : List (Nat × Nat)} (m : NvmManager),
    (∀ r ∈ recs, r.1 + r.2 ≤ m.cap) →
    (∀ r ∈ recs, ∀ l ∈ m.live, NoOvl r l) →
    List.Pairwise NoOvl recs →
    m.recovery recs = .ok
      ⟨m.logCap, m.cap, recs.foldl (fun a r => max a (r.1 + r.2)) m.index,
        m.logIndex, m.freeList, m.live ++ recs⟩ := by
  intro recs
  induction recs with
  | nil =>
    intro m _ _ _
    simp only [NvmManager.recovery, List.foldl_nil, List.append_nil]
  | cons r rs ih =>
    intro m hb ho hp
    have hcond : r.1 + r.2 ≤ m.cap ∧
        (m.live.all (fun l => !overlapB (r.1, r.2) l)) = true := by
      refine ⟨hb r (by simp), List.all_eq_true.mpr ?_⟩
      intro l hl
      have := ho r (by simp) l hl
      simpa using this
    have hre : m.reallocate r.1 r.2 =
        .ok (Nvmem.mk0 r.1 r.2, { m with live := m.live ++ [(r.1, r.2)] }) := by
      unfold NvmManager.reallocate
      rw [if_pos hcond]
    simp only [NvmManager.recovery, NvmManager.recovery1, hre]
    have happ := ih { m with
        live := m.live ++ [(r.1, r.2)]
        index := max m.index (r.1 + r.2) }
      (fun x hx => hb x (by simp [hx]))
      (fun x hx l hl => by
        rcases List.mem_append.mp hl with h1 | h2
        · exact ho x (by simp [hx]) l h1
        · have : l = (r.1, r.2) := by simpa using h2
          subst this
          exact noOvl_symm ((List.pairwise_cons.mp hp).1 x hx))
      ((List.pairwise_cons.mp hp).2)
    rw [List.append_assoc] at happ
    exact happ

/-! Claim theorems. -/

/-- C1: on a handle with remaining capacity `k`, `Insert(data, length)`
succeeds exactly when `length ≤ k` and fails with an out-of-space condition
when `length > k`; on failure the append is rejected in full — the handle
(remaining capacity, write cursor, written bytes) is unchanged. -/
theorem insert_space_contract (h : Nvmem) (data : List Nat) (len : Nat) :
    ((∃ v, (h.Insert data len).1 = .ok v) ↔ len ≤ h.remain) ∧
    (h.remain < len → h.Insert data len = (.error .outOfSpace, h)) := by
  constructor
  · constructor
    · rintro ⟨v, hv⟩
      by_contra hlt
      unfold Nvmem.Insert at hv
      rw [if_neg hlt] at hv
      cases hv
    · intro hle
      exact ⟨h.base + h.index, by unfold Nvmem.Insert; rw [if_pos hle]⟩
  · intro hlt
    unfold Nvmem.Insert
    rw [if_neg (by omega)]

/-- Witness for C1: the spec's concrete scenario — a handle with 24 bytes left
rejects a 30-byte insert with out-of-space and is left unchanged. -/
theorem insert_space_contract_witness :
    Nvmem.Insert ⟨0, 1024, 1000, 24, 10, []⟩ [] 30 =
      (.error .outOfSpace, ⟨0, 1024, 1000, 24, 10, []⟩) :=
  (insert_space_contract ⟨0, 1024, 1000, 24, 10, []⟩ [] 30).2 (by decide)

/-- C2: a successful `Insert(data, length)` advances the cursor by `length`,
decreases the remaining capacity by `length`, and returns the absolute pool
offset of the written bytes — the handle's base offset plus the cursor value
before the call. -/
theorem insert_success_effects (h : Nvmem) (data : List Nat) (len : Nat)
    (hle : len ≤ h.remain) :
    h.Insert data len =
      (.ok (h.GetBeginAddress + h.index),
        { h with
            index := h.index + len
            remain := h.remain - len
            written := h.written ++ data.take len }) := by
  unfold Nvmem.Insert Nvmem.GetBeginAddress
  rw [if_pos hle]

/-- Witness for C2: a concrete successful insert returning base + cursor and
updating cursor and remaining capacity. -/
theorem insert_success_effects_witness :
    Nvmem.Insert ⟨100, 1024, 7, 1017, 0, [1, 2, 3]⟩ [9, 9] 2 =
      (.ok 107, ⟨100, 1024, 9, 1015, 0, [1, 2, 3, 9, 9]⟩) :=
  insert_success_effects ⟨100, 1024, 7, 1017, 0, [1, 2, 3]⟩ [9, 9] 2 (by decide)

/-- C3: `allocate(n)` is satisfied from the free pool by first fit — the first
extent of length at least `n` is used, a larger extent is split with the
remainder re-entering the free pool, no extents are coalesced, and the cursor
is untouched; with no sufficient free extent it bump-allocates, advancing the
cursor by `n`; when the cursor would exceed `cap` it returns an out-of-space
failure value (it never aborts: `allocate` is total). -/
theorem allocate_policy (m : NvmManager) (n : Nat) :
    (∀ pre e post, m.freeList = pre ++ e :: post → (∀ f ∈ pre, f.2 < n) →
      n ≤ e.2 →
      m.allocate n = .ok (Nvmem.mk0 e.1 n,
        { m with
            freeList :=
              if n < e.2 then (pre ++ post) ++ [(e.1 + n, e.2 - n)]
              else pre ++ post
            live := m.live ++ [(e.1, n)] })) ∧
    ((∀ f ∈ m.freeList, f.2 < n) → m.index + n ≤ m.cap →
      m.allocate n = .ok (Nvmem.mk0 m.index n,
        { m with index := m.index + n, live := m.live ++ [(m.index, n)] })) ∧
    ((∀ f ∈ m.freeList, f.2 < n) → m.cap < m.index + n →
      m.allocate n = .error .outOfSpace) := by
  refine ⟨?_, ?_, ?_⟩
  · intro pre e post hfl hpre hn
    unfold NvmManager.allocate
    rw [hfl, firstFit_eq_of hpre hn]
  · intro hall hbound
    simp only [NvmManager.allocate, firstFit_none_of hall]
    rw [if_pos hbound]
  · intro hall hbound
    simp only [NvmManager.allocate, firstFit_none_of hall]
    rw [if_neg (by omega)]

/-- Witness for C3: a first-fit reuse with a split remainder, a bump
allocation, and an out-of-space failure, each at concrete inputs. -/
theorem allocate_policy_witness :
    NvmManager.allocate ⟨100, 1000, 500, 0, [(100, 10), (200, 80)], []⟩ 50 =
      .ok (Nvmem.mk0 200 50,
        ⟨100, 1000, 500, 0, [(100, 10), (250, 30)], [(200, 50)]⟩) ∧
    NvmManager.allocate ⟨100, 1000, 900, 0, [], []⟩ 100 =
      .ok (Nvmem.mk0 900 100, ⟨100, 1000, 1000, 0, [], [(900, 100)]⟩) ∧
    NvmManager.allocate ⟨100, 1000, 950, 0, [(0, 10)], []⟩ 100 =
      .error .outOfSpace := by
  refine ⟨?_, ?_, ?_⟩
  · exact (allocate_policy ⟨100, 1000, 500, 0, [(100, 10), (200, 80)], []⟩ 50).1
      [(100, 10)] (200, 80) [] rfl (by decide) (by decide)
  · exact (allocate_policy ⟨100, 1000, 900, 0, [], []⟩ 100).2.1
      (by decide) (by decide)
  · exact (allocate_policy ⟨100, 1000, 950, 0, [(0, 10)], []⟩ 100).2.2
      (by decide) (by decide)

/-- C4: at every reachable pool state the cursor satisfies `index ≤ cap`
(`0 ≤ index` holds by type), every live range lies within the pool, live
ranges are pairwise disjoint and disjoint from every free extent; every
successful `allocate(n)` returns a range of length at least `n`, within the
pool, and disjoint from every other currently live range. -/
theorem pool_invariants (m : NvmManager) (hm : Reachable m) :
    m.index ≤ m.cap ∧
    (∀ r ∈ m.live, r.1 + r.2 ≤ m.cap) ∧
    List.Pairwise NoOvl m.live ∧
    (∀ r ∈ m.live, ∀ f ∈ m.freeList, NoOvl r f) ∧
    (∀ n h m', m.allocate n = .ok (h, m') →
      n ≤ h.size ∧ h.GetBeginAddress + h.size ≤ m.cap ∧
      ∀ r ∈ m.live, NoOvl (h.GetBeginAddress, h.size) r) := by
  obtain ⟨hLI, hIC, hLiveEnd, hFreeEnd, hPL, hPF, hLF⟩ := reachable_inv hm
  refine ⟨hIC, fun r hr => by have := hLiveEnd r hr; omega, hPL, hLF, ?_⟩
  intro n h m' hok
  obtain ⟨_, _, _, _, _, hsize, _, _, hbase, _, hno⟩ :=
    allocate_ok ⟨hLI, hIC, hLiveEnd, hFreeEnd, hPL, hPF, hLF⟩ hok
  refine ⟨hsize.ge, ?_, ?_⟩
  · rw [hsize]
    exact hbase
  · rw [hsize]
    exact hno

/-- Witness for C4: the invariant at a concrete reachable state. -/
theorem pool_invariants_witness :
    (NvmManager.init 1000 100).index ≤ (NvmManager.init 1000 100).cap :=
  (pool_invariants (NvmManager.init 1000 100)
    (Reachable.init 1000 100 (by decide))).1

/-- Counterexample for C5: `reallocate` alone does not prevent a later
`allocate` from assigning overlapping memory.  On a fresh pool
(`cap = 1000`, `logCap = 100`) the call `reallocate(150, 50)` succeeds and
marks `[150, 200)` live, but it leaves the bump cursor at 100, so the next
`allocate(100)` hands out `[100, 200)`, which overlaps the reallocated
range. -/
theorem reallocate_counterexample :
    (NvmManager.init 1000 100).reallocate 150 50 =
      .ok (Nvmem.mk0 150 50, ⟨100, 1000, 100, 0, [], [(150, 50)]⟩) ∧
    NvmManager.allocate ⟨100, 1000, 100, 0, [], [(150, 50)]⟩ 100 =
      .ok (Nvmem.mk0 100 100, ⟨100, 1000, 200, 0, [], [(150, 50), (100, 100)]⟩) ∧
    overlapB ((Nvmem.mk0 100 100).GetBeginAddress, (Nvmem.mk0 100 100).size)
      (150, 50) = true := by
  decide

/-- C5 (amended): `reallocate(offset, size)` fails with an integrity violation
exactly when `offset + size > cap` or the range overlaps a live allocation —
in particular `reallocate(cap, 1)` always fails; otherwise it constructs a
handle over exactly that range and marks it live without consuming the bump
cursor.  Marking alone does not prevent a later `allocate` from assigning
overlapping memory; under the documented discipline (reallocate reached only
through recovery at startup, which advances the cursor past every
reconstructed range) every later `allocate` result is disjoint from all live
ranges. -/
theorem reallocate_amended (m : NvmManager) (offset size : Nat) :
    (m.cap < offset + size →
      m.reallocate offset size = .error .integrityViolation) ∧
    ((∃ r ∈ m.live, overlapB (offset, size) r = true) →
      m.reallocate offset size = .error .integrityViolation) ∧
    (offset + size ≤ m.cap → (∀ r ∈ m.live, NoOvl (offset, size) r) →
      m.reallocate offset size =
        .ok (Nvmem.mk0 offset size,
          { m with live := m.live ++ [(offset, size)] })) ∧
    m.reallocate m.cap 1 = .error .integrityViolation ∧
    (∀ m₁ : NvmManager, Reachable m₁ → ∀ n h m₂,
      m₁.allocate n = .ok (h, m₂) →
      ∀ r ∈ m₁.live, NoOvl (h.GetBeginAddress, h.size) r) := by
  refine ⟨?_, ?_, ?_, ?_, ?_⟩
  · intro hgt
    unfold NvmManager.reallocate
    split
    · next hcond => exact absurd hcond.1 (by omega)
    · rfl
  · rintro ⟨r, hr, hov⟩
    unfold NvmManager.reallocate
    split
    · next hcond =>
      exfalso
      have := List.all_eq_true.mp hcond.2 r hr
      simp [hov] at this
    · rfl
  · intro hle hov
    unfold NvmManager.reallocate
    split
    · rfl
    · next hcond =>
      exfalso
      exact hcond ⟨hle, List.all_eq_true.mpr fun r hr => by simpa using hov r hr⟩
  · unfold NvmManager.reallocate
    split
    · next hcond => exact absurd hcond.1 (by omega)
    · rfl
  · intro m₁ hm₁ n h m₂ hok r hr
    obtain ⟨_, _, _, _, _, hsize, _, _, _, _, hno⟩ :=
      allocate_ok (reachable_inv hm₁) hok
    rw [hsize]
    exact hno r hr

/-- Witness for C5 (amended): out-of-bounds rejection and a successful exact
reconstruction at concrete inputs. -/
theorem reallocate_amended_witness :
    (NvmManager.init 1000 100).reallocate 1000 1 = .error .integrityViolation ∧
    (NvmManager.init 1000 100).reallocate 150 50 =
      .ok (Nvmem.mk0 150 50, ⟨100, 1000, 100, 0, [], [(150, 50)]⟩) :=
  ⟨(reallocate_amended (NvmManager.init 1000 100) 1000 1).1 (by decide),
   (reallocate_amended (NvmManager.init 1000 100) 150 50).2.2.1
     (by decide) (by decide)⟩

/-- C6: a successful `recovery(records)` replays every record through
`reallocate`, leaves the free-extent pool unreconstructed (empty on a fresh
pool), advances the general cursor to the maximum observed `offset + size`,
and produces a state whose `getNvmInfo` used-byte count equals the sum of the
reconstructed handles' sizes; it succeeds whenever the records are pairwise
disjoint and within the pool, as the ranges of a prior session are. -/
theorem recovery_rebuild (cap logCap : Nat) (recs : List (Nat × Nat))
    (hdisj : List.Pairwise NoOvl recs)
    (hbound : ∀ r ∈ recs, r.1 + r.2 ≤ cap) :
    (NvmManager.init cap logCap).recovery recs =
      .ok ⟨logCap, cap, recs.foldl (fun a r => max a (r.1 + r.2)) logCap,
        0, [], recs⟩ ∧
    (NvmManager.getNvmInfo
        ⟨logCap, cap, recs.foldl (fun a r => max a (r.1 + r.2)) logCap,
          0, [], recs⟩).1 =
      (recs.map Prod.snd).sum := by
  constructor
  · exact recovery_exact (NvmManager.init cap logCap) hbound
      (fun r hr l hl => by simp [NvmManager.init] at hl) hdisj
  · rfl

/-- Witness for C6: replaying two records rebuilds both live ranges, moves the
cursor to the larger end offset, keeps the free pool empty, and reports their
total size as used bytes. -/
theorem recovery_rebuild_witness :
    (NvmManager.init 1000 64).recovery [(100, 50), (200, 10)] =
      .ok ⟨64, 1000, 210, 0, [], [(100, 50), (200, 10)]⟩ ∧
    (NvmManager.getNvmInfo ⟨64, 1000, 210, 0, [], [(100, 50), (200, 10)]⟩).1 =
      60 := by
  have := recovery_rebuild 1000 64 [(100, 50), (200, 10)] (by decide) (by decide)
  exact ⟨this.1, this.2⟩

/-- Counterexample for C7: the pool does not enforce region separation when a
recovery record lies in the log region.  On a pool with `logCap = 100`,
recovering the record `(0, 50)` succeeds, freeing that range puts `[0, 50)`
into the free pool, and the next `allocate(50)` — a general-region request —
returns the range `[0, 50)`, entirely inside the log region. -/
theorem region_counterexample :
    (NvmManager.init 1000 100).recovery [(0, 50)] =
      .ok ⟨100, 1000, 100, 0, [], [(0, 50)]⟩ ∧
    NvmManager.free ⟨100, 1000, 100, 0, [], [(0, 50)]⟩ 0 =
      ⟨100, 1000, 100, 0, [(0, 50)], []⟩ ∧
    NvmManager.allocate ⟨100, 1000, 100, 0, [(0, 50)], []⟩ 50 =
      .ok (Nvmem.mk0 0 50, ⟨100, 1000, 100, 0, [], [(0, 50)]⟩) ∧
    (Nvmem.mk0 0 50).GetBeginAddress + (Nvmem.mk0 0 50).size ≤ 100 := by
  decide

/-- C7 (amended): `initialize` sets the general cursor to `logCap` and an
independent log cursor; provided every recovery record lies in the general
region, at every reachable state the general cursor never drops below
`logCap`, every live range and free extent starts at or above `logCap`, the
log cursor is untouched by general operations, and every `allocate` result
lies in the general region — the manager never satisfies a general-region
request from the log region. -/
theorem region_separation (m : NvmManager) (hm : GenReachable m) :
    m.logCap ≤ m.index ∧ m.logIndex = 0 ∧
    (∀ r ∈ m.live, m.logCap ≤ r.1) ∧
    (∀ f ∈ m.freeList, m.logCap ≤ f.1) ∧
    (∀ n h m', m.allocate n = .ok (h, m') → m.logCap ≤ h.GetBeginAddress) ∧
    (∀ c l : Nat, (NvmManager.init c l).index = l ∧
      (NvmManager.init c l).logIndex = 0) := by
  obtain ⟨h1, h2, h3, h4⟩ := genReachable_region hm
  exact ⟨h1, h2, h3, h4,
    fun n h m' hok => (allocate_region ⟨h1, h2, h3, h4⟩ hok).2.1,
    fun c l => ⟨rfl, rfl⟩⟩

/-- Witness for C7 (amended): region bookkeeping at a concrete reachable
state. -/
theorem region_separation_witness :
    (NvmManager.init 1000 100).logCap ≤ (NvmManager.init 1000 100).index :=
  (region_separation (NvmManager.init 1000 100)
    (GenReachable.init 1000 100 (by decide))).1

/-- C8: recording `GetBeginAddress()` together with the handle's size and
replaying the pair through `reallocate` yields a handle with identical base
offset and identical size (whenever the replay is admissible: range within
the pool, no live overlap — as after a restart). -/
theorem roundtrip_reallocate (m : NvmManager) (h : Nvmem)
    (hcap : h.GetBeginAddress + h.size ≤ m.cap)
    (hov : ∀ r ∈ m.live, NoOvl (h.GetBeginAddress, h.size) r) :
    m.reallocate h.GetBeginAddress h.size =
      .ok (Nvmem.mk0 h.base h.size,
        { m with live := m.live ++ [(h.base, h.size)] }) ∧
    (Nvmem.mk0 h.base h.size).GetBeginAddress = h.GetBeginAddress ∧
    (Nvmem.mk0 h.base h.size).size = h.size := by
  refine ⟨?_, rfl, rfl⟩
  unfold NvmManager.reallocate
  rw [if_pos ⟨hcap, List.all_eq_true.mpr fun r hr => by simpa using hov r hr⟩]
  rfl

/-- Witness for C8: replaying a concrete handle's base and size reconstructs
the same base and size. -/
theorem roundtrip_reallocate_witness :
    (NvmManager.init 1000 100).reallocate (Nvmem.mk0 300 50).GetBeginAddress
        (Nvmem.mk0 300 50).size =
      .ok (Nvmem.mk0 300 50, ⟨100, 1000, 100, 0, [], [(300, 50)]⟩) ∧
    (Nvmem.mk0 300 50).GetBeginAddress = 300 := by
  have := roundtrip_reallocate (NvmManager.init 1000 100) (Nvmem.mk0 300 50)
    (by decide) (by decide)
  exact ⟨this.1, rfl⟩

/-- C9: `UpdateIndex(newIndex)` fails fatally with an integrity violation —
not a recoverable out-of-space — whenever `newIndex > size`, and otherwise
repositions the byte cursor to `newIndex`. -/
theorem updateIndex_contract (h : Nvmem) (newIndex : Nat) :
    (newIndex ≤ h.size →
      h.UpdateIndex newIndex =
        .ok { h with index := newIndex, remain := h.size - newIndex }) ∧
    (h.size < newIndex →
      h.UpdateIndex newIndex = .error .integrityViolation) := by
  constructor
  · intro hle
    unfold Nvmem.UpdateIndex
    rw [if_pos hle]
  · intro hlt
    unfold Nvmem.UpdateIndex
    rw [if_neg (by omega)]

/-- Witness for C9: repositioning within bounds succeeds; a position beyond
the handle's size is an integrity violation. -/
theorem updateIndex_contract_witness :
    Nvmem.UpdateIndex ⟨0, 100, 7, 93, 0, []⟩ 101 = .error .integrityViolation ∧
    Nvmem.UpdateIndex ⟨0, 100, 7, 93, 0, []⟩ 40 = .ok ⟨0, 100, 40, 60, 0, []⟩ :=
  ⟨(updateIndex_contract ⟨0, 100, 7, 93, 0, []⟩ 101).2 (by decide),
   (updateIndex_contract ⟨0, 100, 7, 93, 0, []⟩ 40).1 (by decide)⟩

/-- C10: `allocate` with no explicit size requests exactly `30 * MB`, the same
value as the default log-region capacity `LOGCAP`, so a defaulted `allocate`
and the default log region have equal size. -/
theorem allocate_default_cap :
    allocateDefaultCap = 30 * MB ∧ allocateDefaultCap = LOGCAP ∧
    ∀ m : NvmManager, m.allocateDefault = m.allocate LOGCAP :=
  ⟨rfl, rfl, fun _ => rfl⟩

end LazyStore
